import Mathlib

/-!
# MeetC2: tasking codec, dispatch check and output ledger

A shallow embedding of the text protocol implemented in `guest.go`
(`Guest.CheckAndExecute`, `Guest.UpdateEventWithOutput`) and
`controller/organizer.go` (`Organizer.CreateCommand`,
`Organizer.ClearExecutedEvents`, `Organizer.getExecutedHosts`,
`Organizer.extractHostOutputs`).

Go strings are modelled as lists of Unicode code points (`Str`); the calendar
store carries titles and descriptions as text, and every separator the program
looks for (`@`, `:`, `\n`, `]`, the markers) is ASCII, so the byte-wise
functions of package `strings` agree with their code-point-wise models below.
-/

namespace MeetC2

/-- Go `string`, as a sequence of code points. -/
abbrev Str := List Char

/-! ## Package `strings` -/

/-- Model of `strings.HasPrefix(s, prefix)`. -/
def hasPrefix (s pre : Str) : Bool := pre.isPrefixOf s

/-- Model of `strings.HasSuffix(s, suffix)`. -/
def hasSuffix (s suf : Str) : Bool := suf.isSuffixOf s

/-- Model of `strings.TrimPrefix(s, prefix)`. -/
def trimPrefix (s pre : Str) : Str :=
  if hasPrefix s pre then s.drop pre.length else s

/-- Model of `strings.TrimSuffix(s, suffix)`. -/
def trimSuffix (s suf : Str) : Str :=
  if hasSuffix s suf then s.take (s.length - suf.length) else s

/-- Model of `strings.Contains(s, substr)`: `substr` starts at some position of `s`. -/
def contains : Str → Str → Bool
  | [], sub => hasPrefix [] sub
  | c :: cs, sub => hasPrefix (c :: cs) sub || contains cs sub

/-- Model of `unicode.IsSpace`: the code points with the White_Space property. -/
def isSpace (c : Char) : Bool :=
  let n := c.toNat
  (9 ≤ n && n ≤ 13) || n == 32 || n == 0x85 || n == 0xA0 || n == 0x1680 ||
  (0x2000 ≤ n && n ≤ 0x200A) || n == 0x2028 || n == 0x2029 || n == 0x202F ||
  n == 0x205F || n == 0x3000

/-- Leading white space removed (`strings.TrimLeftFunc(s, unicode.IsSpace)`). -/
def trimLeft (s : Str) : Str := s.dropWhile isSpace

/-- Trailing white space removed (`strings.TrimRightFunc(s, unicode.IsSpace)`). -/
def trimRight (s : Str) : Str := (s.reverse.dropWhile isSpace).reverse

/-- Model of `strings.TrimSpace(s)`: leading, then trailing white space removed. -/
def trimSpace (s : Str) : Str := trimRight (trimLeft s)

/-- Model of `strings.Split(s, sep)` for a one-character separator: the pieces
between all occurrences of `sep`; the empty string gives one empty piece. -/
def split (sep : Char) : Str → List Str
  | [] => [[]]
  | c :: cs =>
    if c = sep then [] :: split sep cs
    else
      match split sep cs with
      | [] => [[c]]
      | l :: ls => (c :: l) :: ls

/-- Model of `strings.SplitN(s, sep, 2)` for a one-character separator: cut at
the first occurrence of `sep`, or the whole string alone when there is none. -/
def splitN2 (sep : Char) (s : Str) : List Str :=
  match s.span (fun c => c != sep) with
  | (_, []) => [s]
  | (a, _ :: b) => [a, b]

/-! ## Constants of the protocol -/

/-- The `commandPrefix` set in `NewGuest`: `Meeting from nobody:`. -/
def commandPrefix : Str :=
  ['M', 'e', 'e', 't', 'i', 'n', 'g', ' ', 'f', 'r', 'o', 'm', ' ',
   'n', 'o', 'b', 'o', 'd', 'y', ':']

/-- The literal `[OUTPUT-`. -/
def outputOpen : Str := ['[', 'O', 'U', 'T', 'P', 'U', 'T', '-']

/-- The literal `[/OUTPUT-`. -/
def outputClose : Str := ['[', '/', 'O', 'U', 'T', 'P', 'U', 'T', '-']

/-- The start marker `fmt.Sprintf("[OUTPUT-%s]", hostname)`. -/
def startMarker (hostname : Str) : Str := outputOpen ++ hostname ++ [']']

/-- The end marker `fmt.Sprintf("[/OUTPUT-%s]", hostname)`. -/
def endMarker (hostname : Str) : Str := outputClose ++ hostname ++ [']']

/-! ## The agent: `guest.go` -/

/-- A calendar event, with the fields the protocol reads and writes. -/
structure Event where
  Id : Str
  Summary : Str
  Description : Str
  ColorId : Str
  deriving DecidableEq, Repr

/-- The values of the local variables of `CheckAndExecute` after the parse of
lines 138-156: `targetHost`, `actualCmd`, whether the branch `len(parts) == 2`
was taken, and whether the `continue` of line 153 was reached. -/
structure Targeting where
  targetHost : Str
  actualCmd : Str
  targeted : Bool
  skip : Bool
  deriving DecidableEq, Repr

/-- The parse for host targeting, `CheckAndExecute` lines 138-156. -/
def parseTargeting (hostname summary : Str) : Targeting :=
  let cmd := trimSpace (trimPrefix summary commandPrefix)
  if hasPrefix cmd ['@'] then
    match splitN2 ':' cmd with
    | [part0, part1] =>
      let targetHost := trimPrefix part0 ['@']
      let actualCmd := part1
      { targetHost := targetHost, actualCmd := actualCmd, targeted := true,
        skip := targetHost != [] && targetHost != hostname && targetHost != ['*'] }
    | _ => { targetHost := [], actualCmd := cmd, targeted := false, skip := false }
  else { targetHost := [], actualCmd := cmd, targeted := false, skip := false }

/-- What the loop body of `CheckAndExecute` does with one event. -/
inductive Decision where
  | notCommand
  | alreadyExecuted
  | notTargeted
  | execute (actualCmd : Str)
  deriving DecidableEq, Repr

/-- The loop body of `CheckAndExecute`, lines 127-157, up to the call of
`ExecuteCommand`. -/
def checkEvent (hostname : Str) (event : Event) : Decision :=
  if !hasPrefix event.Summary commandPrefix then .notCommand
  else if contains event.Description (startMarker hostname) then .alreadyExecuted
  else
    let t := parseTargeting hostname event.Summary
    if t.skip then .notTargeted else .execute t.actualCmd

/-- The description written by `UpdateEventWithOutput`:
`fmt.Sprintf("%s\n\n[OUTPUT-%s]\n%s\n[/OUTPUT-%s]", description, hostname, output, hostname)`. -/
def appendOutput (description hostname output : Str) : Str :=
  description ++ ['\n', '\n'] ++ startMarker hostname ++ ['\n'] ++ output ++ ['\n'] ++
    endMarker hostname

/-- The event written back by a successful `UpdateEventWithOutput`. -/
def updateEventWithOutput (hostname output : Str) (event : Event) : Event :=
  { event with
    Description := appendOutput event.Description hostname output
    ColorId := ['1', '1'] }

/-- One pass of the loop body of `CheckAndExecute` over one event, with
`ExecuteCommand` as the parameter `exec` (command, args to output) and a store
that answers every call: the event after the pass and the commands run. -/
def pollEvent (exec : Str → Str → Str) (hostname : Str) (event : Event) : Event × List Str :=
  match checkEvent hostname event with
  | .execute actualCmd =>
    (updateEventWithOutput hostname (exec actualCmd event.Description) event, [actualCmd])
  | _ => (event, [])

/-! ## The controller: `controller/organizer.go` -/

/-- The `Summary` that `CreateCommand` gives the event it inserts:
`"Meeting from nobody: " + command`. -/
def createCommandSummary (command : Str) : Str :=
  commandPrefix ++ [' '] ++ command

/-- The event inserted by `CreateCommand`, with the store choosing `id`. -/
def createCommand (id command : Str) : Event :=
  { Id := id, Summary := createCommandSummary command, Description := [], ColorId := ['1'] }

/-- Model of `getExecutedHosts`: the ids of the lines that start with
`[OUTPUT-` and end with `]`, in order. -/
def getExecutedHosts (description : Str) : List Str :=
  ((split '\n' description).filter
      (fun line => hasPrefix line outputOpen && hasSuffix line [']'])).map
    (fun line => trimSuffix (trimPrefix line outputOpen) [']'])

/-- A Go `map[string]string`, as an association list with at most one entry a key. -/
abbrev HostMap := List (Str × Str)

/-- Model of the map assignment `m[k] = v`: an entry with key `k` is replaced. -/
def mapSet (m : HostMap) (k v : Str) : HostMap :=
  (k, v) :: m.filter (fun p => p.1 != k)

/-- Model of the map lookup `m[k]`. -/
def mapGet (m : HostMap) (k : Str) : Option Str :=
  (m.find? (fun p => p.1 == k)).map Prod.snd

/-- The keys of a map. -/
def mapKeys (m : HostMap) : List Str := m.map Prod.fst

/-- The local variables of the loop of `extractHostOutputs`. -/
structure ScanState where
  outputs : HostMap
  currentHost : Str
  capturing : Bool
  output : Str
  deriving DecidableEq, Repr

/-- The state `extractHostOutputs` starts its loop in. -/
def ScanState.init : ScanState :=
  { outputs := [], currentHost := [], capturing := false, output := [] }

/-- The write of one captured line to the `strings.Builder`: a newline first
when the builder is not empty. -/
def writeLine (output line : Str) : Str :=
  (if output.length > 0 then output ++ ['\n'] else output) ++ line

/-- The loop body of `extractHostOutputs`, lines 260-276. -/
def scanLine (st : ScanState) (line : Str) : ScanState :=
  if hasPrefix line outputOpen && !hasPrefix line outputClose then
    { st with
      currentHost := trimSuffix (trimPrefix line outputOpen) [']']
      capturing := true
      output := [] }
  else if hasPrefix line outputClose then
    { st with
      outputs :=
        if st.capturing && st.currentHost != [] then
          mapSet st.outputs st.currentHost st.output
        else st.outputs
      capturing := false
      currentHost := [] }
  else if st.capturing then
    { st with output := writeLine st.output line }
  else st

/-- Model of `extractHostOutputs`. -/
def extractHostOutputs (description : Str) : HostMap :=
  ((split '\n' description).foldl scanLine ScanState.init).outputs

/-- Model of the store call `Events.Delete(calendarID, id)`, every call
succeeding: the event with this id is gone from the store. -/
def deleteEvent (store : List Event) (id : Str) : List Event :=
  store.filter (fun e => e.Id != id)

/-- Model of `ClearExecutedEvents` over a store held as a list, every delete
succeeding: the loop over the listed `items`, with the store and `count`. -/
def clearLoop (items : List Event) (store : List Event) (count : Nat) : List Event × Nat :=
  items.foldl
    (fun acc event =>
      if contains event.Description outputOpen then (deleteEvent acc.1 event.Id, acc.2 + 1)
      else acc)
    (store, count)

/-- Model of `ClearExecutedEvents`: the store after the purge and the count printed. -/
def clearExecutedEvents (store : List Event) : List Event × Nat :=
  clearLoop store store 0

/-! ## The target specification of the tasking codec -/

/-- Who a task is for: the untargeted form, a named host, or the explicit `*`. -/
inductive TargetSpec where
  | Broadcast
  | Host (name : Str)
  | Wildcard
  deriving DecidableEq, Repr

/-- The command text the operator gives `exec` for a target, after the usage
lines of `InteractiveMode`: `<cmd>`, `@host:<cmd>`, `@*:<cmd>`. -/
def targetCommand : TargetSpec → Str → Str
  | .Broadcast, command => command
  | .Host h, command => ['@'] ++ h ++ [':'] ++ command
  | .Wildcard, command => ['@', '*', ':'] ++ command

/-- The title `CreateCommand` builds for a target and a command. -/
def encode (target : TargetSpec) (command : Str) : Str :=
  createCommandSummary (targetCommand target command)

/-- The target a parse stands for, in the words of the specification: `*` is
the wildcard, any other token of the `@target:` form a host, and a title
without that form a broadcast. -/
def specTarget (t : Targeting) : TargetSpec :=
  if t.targeted then
    if t.targetHost = ['*'] then .Wildcard else .Host t.targetHost
  else .Broadcast

/-- The target and command the agent reads from a title. The parse does not
depend on the agent's host name, which only decides `skip`. -/
def decode (summary : Str) : TargetSpec × Str :=
  let t := parseTargeting [] summary
  (specTarget t, t.actualCmd)

/-! ## Predicates used to state the properties -/

/-- A line that is neither a start nor an end marker for `extractHostOutputs`. -/
def plainLine (line : Str) : Prop :=
  hasPrefix line outputOpen = false ∧ hasPrefix line outputClose = false

instance (line : Str) : Decidable (plainLine line) := by
  unfold plainLine
  exact inferInstance

/-- A text none of whose lines begins with `[OUTPUT-` or `[/OUTPUT-`. -/
def plainText (text : Str) : Prop := ∀ line ∈ split '\n' text, plainLine line

instance (text : Str) : Decidable (plainText text) := by
  unfold plainText
  exact inferInstance

/-- A text that is empty or does not begin with a newline. -/
def noLeadingNewline (text : Str) : Prop := text.head? ≠ some '\n'

instance (text : Str) : Decidable (noLeadingNewline text) := by
  unfold noLeadingNewline
  exact inferInstance

/-- A host id an agent can report under: non-empty and without a newline. -/
def validHost (h : Str) : Prop := h ≠ [] ∧ '\n' ∉ h

instance (h : Str) : Decidable (validHost h) := by
  unfold validHost
  exact inferInstance

/-- The body after the agents of `reports` (host id, result) have appended their
blocks one after the other with `UpdateEventWithOutput`. -/
def appendAll (description : Str) (reports : List (Str × Str)) : Str :=
  reports.foldl (fun body p => appendOutput body p.1 p.2) description

/-- The lines of a text put together again, a newline between two lines. -/
def joinLines : List Str → Str
  | [] => []
  | [l] => l
  | l :: l2 :: ls => l ++ '\n' :: joinLines (l2 :: ls)

/-- The tasks the codec carries unchanged: the command has no white space at
an end that `strings.TrimSpace` reaches, an untargeted command does not itself
have the `@target:` form, and a host name has no `:` and is not `*`. -/
def wellFormedTask : TargetSpec → Str → Prop
  | .Broadcast, command =>
    trimSpace command = command ∧ ¬(hasPrefix command ['@'] = true ∧ ':' ∈ command)
  | .Host h, command => ':' ∉ h ∧ h ≠ ['*'] ∧ trimRight command = command
  | .Wildcard, command => trimRight command = command

instance (target : TargetSpec) (command : Str) : Decidable (wellFormedTask target command) := by
  cases target <;> unfold wellFormedTask <;> exact inferInstance

/-! ## Lemmas on the string functions -/

theorem hasPrefix_append (pre s : Str) : hasPrefix (pre ++ s) pre = true := by
  unfold hasPrefix
  exact List.isPrefixOf_iff_prefix.mpr (List.prefix_append pre s)

theorem hasPrefix_iff (s pre : Str) : hasPrefix s pre = true ↔ ∃ t, s = pre ++ t := by
  unfold hasPrefix
  rw [List.isPrefixOf_iff_prefix]
  constructor
  · rintro ⟨t, ht⟩
    exact ⟨t, ht.symm⟩
  · rintro ⟨t, ht⟩
    exact ⟨t, ht.symm⟩

theorem trimPrefix_append (pre s : Str) : trimPrefix (pre ++ s) pre = s := by
  unfold trimPrefix
  rw [hasPrefix_append]
  simp

theorem hasSuffix_append (s suf : Str) : hasSuffix (s ++ suf) suf = true := by
  unfold hasSuffix
  exact List.isSuffixOf_iff_suffix.mpr (List.suffix_append s suf)

theorem trimSuffix_append (s suf : Str) : trimSuffix (s ++ suf) suf = s := by
  unfold trimSuffix
  rw [hasSuffix_append]
  simp

theorem contains_of_hasPrefix (s sub : Str) (h : hasPrefix s sub = true) :
    contains s sub = true := by
  cases s with
  | nil => simpa [contains] using h
  | cons c cs => simp [contains, h]

theorem contains_append_left (a s sub : Str) (h : contains s sub = true) :
    contains (a ++ s) sub = true := by
  induction a with
  | nil => simpa using h
  | cons c cs ih => simp [contains, ih]

theorem contains_middle (a sub b : Str) : contains (a ++ sub ++ b) sub = true := by
  rw [List.append_assoc]
  exact contains_append_left a _ sub (contains_of_hasPrefix _ _ (hasPrefix_append sub b))

theorem split_ne_nil (sep : Char) (s : Str) : split sep s ≠ [] := by
  induction s with
  | nil => simp [split]
  | cons c cs ih =>
    unfold split
    split
    · simp
    · split <;> simp

theorem split_of_not_mem (sep : Char) (s : Str) (h : sep ∉ s) : split sep s = [s] := by
  induction s with
  | nil => simp [split]
  | cons c cs ih =>
    have hc : c ≠ sep := fun e => h (by simp [e])
    have hcs : sep ∉ cs := fun e => h (by simp [e])
    simp [split, hc, ih hcs]

theorem split_append_sep (sep : Char) (a b : Str) :
    split sep (a ++ sep :: b) = split sep a ++ split sep b := by
  induction a with
  | nil => simp [split]
  | cons c cs ih =>
    by_cases hc : c = sep
    · simp [split, hc, ih]
    · have hne := split_ne_nil sep cs
      cases hs : split sep cs with
      | nil => exact absurd hs hne
      | cons l ls =>
        have e : split sep (c :: (cs ++ sep :: b)) = (c :: l) :: (ls ++ split sep b) := by
          simp only [split, hc, if_false, ih, hs, List.cons_append]
        have e2 : split sep (c :: cs) = (c :: l) :: ls := by
          simp only [split, hc, if_false, hs]
        rw [List.cons_append, e, e2, List.cons_append]

theorem splitN2_of_not_mem (sep : Char) (s : Str) (h : sep ∉ s) : splitN2 sep s = [s] := by
  unfold splitN2
  have : s.span (fun c => c != sep) = (s, []) := by
    rw [List.span_eq_take_drop]
    have hall : ∀ c ∈ s, (c != sep) = true := by
      intro c hc
      simp only [bne_iff_ne, ne_eq]
      intro e
      exact h (e ▸ hc)
    rw [List.takeWhile_eq_self_iff.mpr hall, List.dropWhile_eq_nil_iff.mpr hall]
  rw [this]

theorem splitN2_append_sep (sep : Char) (a b : Str) (h : sep ∉ a) :
    splitN2 sep (a ++ sep :: b) = [a, b] := by
  unfold splitN2
  have : (a ++ sep :: b).span (fun c => c != sep) = (a, sep :: b) := by
    rw [List.span_eq_take_drop]
    have hall : ∀ c ∈ a, (c != sep) = true := by
      intro c hc
      simp only [bne_iff_ne, ne_eq]
      intro e
      exact h (e ▸ hc)
    rw [List.takeWhile_append_of_pos hall, List.dropWhile_append_of_pos hall]
    simp
  rw [this]

theorem dropWhile_append_stop (p : Char → Bool) (x y : Str) (c : Char) (hc : p c = false) :
    (x ++ c :: y).dropWhile p = x.dropWhile p ++ c :: y := by
  induction x with
  | nil => simp [List.dropWhile, hc]
  | cons d ds ih =>
    by_cases hd : p d = true
    · simp [List.dropWhile, hd, ih]
    · simp [List.dropWhile, hd]

theorem trimRight_append_stop (a b : Str) (c : Char) (hc : isSpace c = false) :
    trimRight (a ++ c :: b) = a ++ c :: trimRight b := by
  unfold trimRight
  rw [List.reverse_append, List.reverse_cons, List.append_assoc]
  simp only [List.singleton_append]
  rw [dropWhile_append_stop isSpace _ _ c hc]
  simp

theorem trimLeft_cons_space (c : Char) (s : Str) (hc : isSpace c = true) :
    trimLeft (c :: s) = trimLeft s := by
  simp [trimLeft, List.dropWhile, hc]

theorem trimLeft_cons_stop (c : Char) (s : Str) (hc : isSpace c = false) :
    trimLeft (c :: s) = c :: s := by
  simp [trimLeft, List.dropWhile, hc]

/-! ## Lemmas on the scanner of `extractHostOutputs` -/

theorem open_not_close (line : Str) (h : hasPrefix line outputOpen = true) :
    hasPrefix line outputClose = false := by
  rcases (hasPrefix_iff _ _).mp h with ⟨t, rfl⟩
  cases hc : hasPrefix (outputOpen ++ t) outputClose with
  | false => rfl
  | true =>
    rcases (hasPrefix_iff _ _).mp hc with ⟨u, hu⟩
    simp [outputOpen, outputClose] at hu

theorem scanLine_start (st : ScanState) (line : Str) (h : hasPrefix line outputOpen = true) :
    scanLine st line =
      { st with
        currentHost := trimSuffix (trimPrefix line outputOpen) [']']
        capturing := true
        output := [] } := by
  simp [scanLine, h, open_not_close line h]

theorem scanLine_startMarker (st : ScanState) (h : Str) :
    scanLine st (startMarker h) =
      { st with currentHost := h, capturing := true, output := [] } := by
  have hp : hasPrefix (startMarker h) outputOpen = true := by
    unfold startMarker
    rw [List.append_assoc]
    exact hasPrefix_append _ _
  rw [scanLine_start st _ hp]
  have : trimSuffix (trimPrefix (startMarker h) outputOpen) [']'] = h := by
    unfold startMarker
    rw [List.append_assoc, trimPrefix_append, trimSuffix_append]
  rw [this]

theorem scanLine_close (st : ScanState) (line : Str) (h : hasPrefix line outputClose = true) :
    scanLine st line =
      { st with
        outputs :=
          if st.capturing && st.currentHost != [] then
            mapSet st.outputs st.currentHost st.output
          else st.outputs
        capturing := false
        currentHost := [] } := by
  have ho : hasPrefix line outputOpen = false := by
    cases hc : hasPrefix line outputOpen with
    | false => rfl
    | true => rw [open_not_close line hc] at h; exact absurd h (by simp)
  simp [scanLine, h, ho]

theorem scanLine_plain (st : ScanState) (line : Str) (h : plainLine line) :
    scanLine st line =
      if st.capturing then { st with output := writeLine st.output line } else st := by
  simp [scanLine, h.1, h.2]

theorem scan_plain_capturing (ls : List Str) (h : ∀ l ∈ ls, plainLine l) :
    ∀ st : ScanState, st.capturing = true →
      ls.foldl scanLine st = { st with output := ls.foldl writeLine st.output } := by
  induction ls with
  | nil => intro st _; rfl
  | cons l ls ih =>
    intro st hcap
    have hl : plainLine l := h l (by simp)
    have hls : ∀ x ∈ ls, plainLine x := fun x hx => h x (by simp [hx])
    rw [List.foldl_cons, scanLine_plain st l hl, if_pos hcap,
      ih hls { st with output := writeLine st.output l } hcap]
    rfl

theorem scan_no_close_outputs (ls : List Str) (h : ∀ l ∈ ls, hasPrefix l outputClose = false) :
    ∀ st : ScanState, (ls.foldl scanLine st).outputs = st.outputs := by
  induction ls with
  | nil => intro st; rfl
  | cons l ls ih =>
    intro st
    have hl := h l (by simp)
    have hls : ∀ x ∈ ls, hasPrefix x outputClose = false := fun x hx => h x (by simp [hx])
    rw [List.foldl_cons, ih hls]
    unfold scanLine
    rw [hl]
    split
    · rfl
    · split
      · rename_i hf; exact absurd hf (by simp)
      · split <;> rfl

theorem writeLine_nil (line : Str) : writeLine [] line = line := by
  simp [writeLine]

theorem writeLine_of_ne_nil (buf line : Str) (h : buf ≠ []) :
    writeLine buf line = buf ++ '\n' :: line := by
  have : buf.length > 0 := List.length_pos.mpr h
  simp [writeLine, this]

theorem joinLines_split (text : Str) : joinLines (split '\n' text) = text := by
  induction text with
  | nil => rfl
  | cons c cs ih =>
    have hne := split_ne_nil '\n' cs
    cases hs : split '\n' cs with
    | nil => exact absurd hs hne
    | cons l ls =>
      rw [hs] at ih
      by_cases hc : c = '\n'
      · have e : split '\n' (c :: cs) = [] :: l :: ls := by
          simp only [split, hc, if_true, hs]
        rw [e]
        simp only [joinLines, List.nil_append, ih, hc]
      · have e : split '\n' (c :: cs) = (c :: l) :: ls := by
          simp only [split, hc, if_false, hs]
        rw [e]
        cases ls with
        | nil =>
          simp only [joinLines] at ih ⊢
          rw [ih]
        | cons l2 ls2 =>
          simp only [joinLines] at ih ⊢
          rw [List.cons_append, ih]

theorem foldl_writeLine_of_ne_nil (ls : List Str) :
    ∀ buf : Str, buf ≠ [] → ls.foldl writeLine buf = joinLines (buf :: ls) := by
  induction ls with
  | nil => intro buf _; rfl
  | cons l ls ih =>
    intro buf hbuf
    rw [List.foldl_cons, writeLine_of_ne_nil buf l hbuf, ih _ (by simp)]
    cases ls with
    | nil => simp [joinLines]
    | cons l2 ls2 => simp [joinLines]

theorem foldl_writeLine_split (text : Str) (h : noLeadingNewline text) :
    (split '\n' text).foldl writeLine [] = text := by
  cases text with
  | nil => rfl
  | cons c cs =>
    have hc : c ≠ '\n' := by
      intro e
      exact h (by simp [e])
    have hne := split_ne_nil '\n' cs
    cases hs : split '\n' cs with
    | nil => exact absurd hs hne
    | cons l ls =>
      have e : split '\n' (c :: cs) = (c :: l) :: ls := by
        simp only [split, hc, if_false, hs]
      rw [e, List.foldl_cons, writeLine_nil, foldl_writeLine_of_ne_nil ls _ (by simp), ← e,
        joinLines_split]

theorem scan_block (st : ScanState) (h : Str) (ls : List Str) (e : Str)
    (hls : ∀ l ∈ ls, plainLine l) (he : hasPrefix e outputClose = true) :
    (startMarker h :: (ls ++ [e])).foldl scanLine st =
      { outputs := if h != [] then mapSet st.outputs h (ls.foldl writeLine []) else st.outputs
        currentHost := []
        capturing := false
        output := ls.foldl writeLine [] } := by
  rw [List.foldl_cons, scanLine_startMarker, List.foldl_append,
    scan_plain_capturing ls hls _ rfl, List.foldl_cons, List.foldl_nil, scanLine_close _ _ he]
  simp

theorem newline_not_mem_startMarker (h : Str) (hn : '\n' ∉ h) : '\n' ∉ startMarker h := by
  simp [startMarker, outputOpen, hn]

theorem newline_not_mem_endMarker (h : Str) (hn : '\n' ∉ h) : '\n' ∉ endMarker h := by
  simp [endMarker, outputClose, hn]

theorem hasPrefix_endMarker (h : Str) : hasPrefix (endMarker h) outputClose = true := by
  unfold endMarker
  rw [List.append_assoc]
  exact hasPrefix_append _ _

theorem split_appendOutput (b h r : Str) (hn : '\n' ∉ h) :
    split '\n' (appendOutput b h r) =
      split '\n' b ++ [] :: startMarker h :: (split '\n' r ++ [endMarker h]) := by
  have e : appendOutput b h r =
      b ++ '\n' :: ([] ++ '\n' :: (startMarker h ++ '\n' :: (r ++ '\n' :: endMarker h))) := by
    simp [appendOutput]
  rw [e, split_append_sep, split_append_sep, split_append_sep, split_append_sep,
    split_of_not_mem _ _ (newline_not_mem_startMarker h hn),
    split_of_not_mem _ _ (newline_not_mem_endMarker h hn)]
  rfl

/-- The append law of the ledger: decoding a body to which a block for a
non-empty host id `h` was appended gives the decoding of the old body with `h`
set to what the scanner captures from the lines of the result. -/
theorem extract_appendOutput_captured (b h r : Str) (hh : validHost h) (hr : plainText r) :
    extractHostOutputs (appendOutput b h r) =
      mapSet (extractHostOutputs b) h ((split '\n' r).foldl writeLine []) := by
  unfold extractHostOutputs
  rw [split_appendOutput b h r hh.2, List.foldl_append, List.foldl_cons,
    scan_block _ h _ _ hr (hasPrefix_endMarker h)]
  have hne : (h != []) = true := by simpa using hh.1
  simp only [hne, if_true]
  congr 1
  exact scan_no_close_outputs [[]] (by simp; decide) _

theorem extract_appendOutput (b h r : Str) (hh : validHost h) (hr : plainText r)
    (hl : noLeadingNewline r) :
    extractHostOutputs (appendOutput b h r) = mapSet (extractHostOutputs b) h r := by
  rw [extract_appendOutput_captured b h r hh hr, foldl_writeLine_split r hl]

theorem mapGet_mapSet (m : HostMap) (k v : Str) : mapGet (mapSet m k v) k = some v := by
  simp [mapGet, mapSet]

theorem extract_appendAll (reports : List (Str × Str))
    (hv : ∀ p ∈ reports, validHost p.1 ∧ noLeadingNewline p.2 ∧ plainText p.2) :
    ∀ b : Str, extractHostOutputs (appendAll b reports) =
      reports.foldl (fun m p => mapSet m p.1 p.2) (extractHostOutputs b) := by
  induction reports with
  | nil => intro b; rfl
  | cons p ps ih =>
    intro b
    have hp := hv p (by simp)
    have hps : ∀ q ∈ ps, validHost q.1 ∧ noLeadingNewline q.2 ∧ plainText q.2 :=
      fun q hq => hv q (by simp [hq])
    have e : appendAll b (p :: ps) = appendAll (appendOutput b p.1 p.2) ps := rfl
    rw [e, ih hps, extract_appendOutput b p.1 p.2 hp.1 hp.2.2 hp.2.1]
    rfl

theorem mapSet_of_not_mem (m : HostMap) (k v : Str) (h : k ∉ mapKeys m) :
    mapSet m k v = (k, v) :: m := by
  unfold mapSet
  congr 1
  apply List.filter_eq_self.mpr
  intro p hp
  simp only [bne_iff_ne, ne_eq]
  intro e
  exact h (by rw [← e]; exact List.mem_map_of_mem Prod.fst hp)

theorem foldl_mapSet_distinct (reports : List (Str × Str)) :
    ∀ m : HostMap, (reports.map Prod.fst).Nodup →
      (∀ k ∈ reports.map Prod.fst, k ∉ mapKeys m) →
      reports.foldl (fun m p => mapSet m p.1 p.2) m = reports.reverse ++ m := by
  induction reports with
  | nil => intro m _ _; rfl
  | cons p ps ih =>
    intro m hd hm
    rw [List.map_cons, List.nodup_cons] at hd
    have hp : p.1 ∉ mapKeys m := hm p.1 (by simp)
    rw [List.foldl_cons, mapSet_of_not_mem m p.1 p.2 hp, ih _ hd.2]
    · simp
    · intro k hk
      have hk2 : k ∉ mapKeys m := hm k (by simp only [List.map_cons, List.mem_cons]; exact Or.inr hk)
      have hne : k ≠ p.1 := fun e => hd.1 (e ▸ hk)
      simp only [mapKeys, List.map_cons, List.mem_cons, not_or]
      exact ⟨hne, hk2⟩

theorem mapGet_of_mem (m : HostMap) (hd : (mapKeys m).Nodup) (k v : Str) (h : (k, v) ∈ m) :
    mapGet m k = some v := by
  induction m with
  | nil => simp at h
  | cons q qs ih =>
    rw [mapKeys, List.map_cons, List.nodup_cons] at hd
    rcases List.mem_cons.mp h with e | hmem
    · subst e
      simp [mapGet]
    · have hne : q.1 ≠ k := by
        intro e
        apply hd.1
        rw [e]
        exact List.mem_map_of_mem Prod.fst hmem
      have := ih hd.2 hmem
      simp only [mapGet, List.find?_cons] at this ⊢
      have hq : (q.1 == k) = false := by simpa using hne
      rw [hq]
      exact this

theorem extract_block_after_open (A B lost content : Str) (hA : '\n' ∉ A) (hB : validHost B)
    (hp : plainText lost) (hc : plainText content) :
    extractHostOutputs
        (startMarker A ++ ['\n'] ++ lost ++ ['\n'] ++ startMarker B ++ ['\n'] ++ content ++
          ['\n'] ++ endMarker B) =
      [(B, (split '\n' content).foldl writeLine [])] := by
  have e : startMarker A ++ ['\n'] ++ lost ++ ['\n'] ++ startMarker B ++ ['\n'] ++ content ++
        ['\n'] ++ endMarker B =
      startMarker A ++ '\n' :: (lost ++ '\n' :: (startMarker B ++ '\n' ::
        (content ++ '\n' :: endMarker B))) := by
    simp
  unfold extractHostOutputs
  rw [e, split_append_sep, split_append_sep, split_append_sep, split_append_sep,
    split_of_not_mem _ _ (newline_not_mem_startMarker A hA),
    split_of_not_mem _ _ (newline_not_mem_startMarker B hB.2),
    split_of_not_mem _ _ (newline_not_mem_endMarker B hB.2)]
  rw [← List.append_assoc, List.foldl_append]
  have hb : [startMarker B] ++ (split '\n' content ++ [endMarker B]) =
      startMarker B :: (split '\n' content ++ [endMarker B]) := rfl
  rw [hb, scan_block _ B _ _ hc (hasPrefix_endMarker B)]
  have hne : (B != []) = true := by simpa using hB.1
  simp only [hne, if_true]
  have hout : (List.foldl scanLine ScanState.init
      ([startMarker A] ++ split '\n' lost)).outputs = [] := by
    rw [scan_no_close_outputs]
    · rfl
    · intro l hl
      rcases List.mem_append.mp hl with h1 | h2
      · rw [List.mem_singleton] at h1
        subst h1
        apply open_not_close
        unfold startMarker
        rw [List.append_assoc]
        exact hasPrefix_append _ _
      · exact (hp l h2).2
  rw [hout]
  rfl

/-! ## Lemmas on the status scanner and the purge -/

theorem mem_mapKeys_mapSet (m : HostMap) (k v x : Str) (h : x ∈ mapKeys (mapSet m k v)) :
    x = k ∨ x ∈ mapKeys m := by
  simp only [mapKeys, mapSet, List.map_cons, List.mem_cons, List.mem_map, List.mem_filter] at h
  rcases h with h | ⟨p, ⟨hp, _⟩, rfl⟩
  · exact Or.inl h
  · exact Or.inr (List.mem_map_of_mem Prod.fst hp)

theorem scanLine_keys (S : List Str) (st : ScanState) (line : Str)
    (hline : hasPrefix line outputOpen = true →
      trimSuffix (trimPrefix line outputOpen) [']'] ∈ S)
    (hkeys : ∀ k ∈ mapKeys st.outputs, k ∈ S)
    (hcur : st.capturing = true → st.currentHost ≠ [] → st.currentHost ∈ S) :
    (∀ k ∈ mapKeys (scanLine st line).outputs, k ∈ S) ∧
      ((scanLine st line).capturing = true → (scanLine st line).currentHost ≠ [] →
        (scanLine st line).currentHost ∈ S) := by
  by_cases ho : hasPrefix line outputOpen = true
  · rw [scanLine_start st line ho]
    exact ⟨hkeys, fun _ _ => hline ho⟩
  · by_cases hc : hasPrefix line outputClose = true
    · rw [scanLine_close st line hc]
      refine ⟨?_, fun h => absurd h (by simp)⟩
      intro k hk
      by_cases hcap : (st.capturing && st.currentHost != []) = true
      · simp only [hcap, if_true] at hk
        rcases mem_mapKeys_mapSet _ _ _ _ hk with e | hm
        · simp only [Bool.and_eq_true, bne_iff_ne, ne_eq] at hcap
          rw [e]
          exact hcur hcap.1 hcap.2
        · exact hkeys k hm
      · simp only [hcap] at hk
        exact hkeys k hk
    · have hp : plainLine line := ⟨by simpa using ho, by simpa using hc⟩
      rw [scanLine_plain st line hp]
      split
      · exact ⟨hkeys, hcur⟩
      · exact ⟨hkeys, hcur⟩

theorem scan_keys (S : List Str) (ls : List Str)
    (hls : ∀ l ∈ ls, hasPrefix l outputOpen = true →
      trimSuffix (trimPrefix l outputOpen) [']'] ∈ S) :
    ∀ st : ScanState, (∀ k ∈ mapKeys st.outputs, k ∈ S) →
      (st.capturing = true → st.currentHost ≠ [] → st.currentHost ∈ S) →
      ∀ k ∈ mapKeys (ls.foldl scanLine st).outputs, k ∈ S := by
  induction ls with
  | nil => intro st hk _; exact hk
  | cons l ls ih =>
    intro st hk hc
    have hstep := scanLine_keys S st l (hls l (by simp)) hk hc
    rw [List.foldl_cons]
    exact ih (fun x hx => hls x (by simp [hx])) _ hstep.1 hstep.2

theorem clearLoop_eq (items : List Event) :
    ∀ (store : List Event) (count : Nat),
      clearLoop items store count =
        (store.filter (fun e =>
            !items.any (fun i => contains i.Description outputOpen && i.Id == e.Id)),
          count + (items.filter (fun i => contains i.Description outputOpen)).length) := by
  induction items with
  | nil => intro store count; simp [clearLoop]
  | cons i is ih =>
    intro store count
    have step : clearLoop (i :: is) store count =
        clearLoop is
          (if contains i.Description outputOpen then deleteEvent store i.Id else store)
          (if contains i.Description outputOpen then count + 1 else count) := by
      unfold clearLoop
      rw [List.foldl_cons]
      by_cases hc : contains i.Description outputOpen = true <;> simp [hc]
    rw [step, ih]
    by_cases hc : contains i.Description outputOpen = true
    · simp only [hc, if_true, deleteEvent, List.filter_filter, List.any_cons, Bool.true_and,
        List.filter_cons_of_pos, List.length_cons]
      refine Prod.ext ?_ ?_
      · apply List.filter_congr
        intro e _
        by_cases hid : i.Id = e.Id
        · simp [hid]
        · have h1 : (i.Id == e.Id) = false := by simpa using hid
          have h2 : (e.Id != i.Id) = true := by simpa using fun h => hid h.symm
          simp [h1, h2]
      · simp only
        omega
    · have hf : contains i.Description outputOpen = false := by simpa using hc
      simp [hf]

/-! ## Lemmas on the title parse -/

theorem mem_first (sep : Char) (s : Str) (h : sep ∈ s) :
    ∃ a b, s = a ++ sep :: b ∧ sep ∉ a := by
  induction s with
  | nil => simp at h
  | cons c cs ih =>
    by_cases hc : c = sep
    · exact ⟨[], cs, by simp [hc], by simp⟩
    · have hcs : sep ∈ cs := by
        rcases List.mem_cons.mp h with e | e
        · exact absurd e.symm hc
        · exact e
      rcases ih hcs with ⟨a, b, hab, ha⟩
      refine ⟨c :: a, b, by simp [hab], ?_⟩
      simp only [List.mem_cons, not_or]
      exact ⟨fun e => hc e.symm, ha⟩

theorem parse_untargeted (hostname summary : Str)
    (h : ¬(hasPrefix (trimSpace (trimPrefix summary commandPrefix)) ['@'] = true ∧
      ':' ∈ trimSpace (trimPrefix summary commandPrefix))) :
    parseTargeting hostname summary =
      { targetHost := [], actualCmd := trimSpace (trimPrefix summary commandPrefix),
        targeted := false, skip := false } := by
  unfold parseTargeting
  by_cases hp : hasPrefix (trimSpace (trimPrefix summary commandPrefix)) ['@'] = true
  · have hc : ':' ∉ trimSpace (trimPrefix summary commandPrefix) := fun e => h ⟨hp, e⟩
    simp only [hp, if_true, splitN2_of_not_mem _ _ hc]
  · simp only [hp]
    rfl

theorem parse_targeted (hostname summary t c : Str)
    (hrem : trimSpace (trimPrefix summary commandPrefix) = ['@'] ++ t ++ [':'] ++ c)
    (ht : ':' ∉ t) :
    parseTargeting hostname summary =
      { targetHost := t, actualCmd := c, targeted := true,
        skip := t != [] && t != hostname && t != ['*'] } := by
  have hform : trimSpace (trimPrefix summary commandPrefix) = ('@' :: t) ++ ':' :: c := by
    rw [hrem]
    simp
  have hsplit : splitN2 ':' (('@' :: t) ++ ':' :: c) = ['@' :: t, c] :=
    splitN2_append_sep ':' ('@' :: t) c (by simp [ht])
  have hpre : hasPrefix (('@' :: t) ++ ':' :: c) ['@'] = true :=
    hasPrefix_append ['@'] (t ++ ':' :: c)
  have htrim : trimPrefix ('@' :: t) ['@'] = t := trimPrefix_append ['@'] t
  unfold parseTargeting
  simp only [hform, hpre, if_true, hsplit, htrim]

theorem trimPrefix_createCommandSummary (command : Str) :
    trimSpace (trimPrefix (createCommandSummary command) commandPrefix) = trimSpace command := by
  unfold createCommandSummary
  rw [List.append_assoc, trimPrefix_append]
  unfold trimSpace
  rw [List.singleton_append, trimLeft_cons_space ' ' command (by decide)]

theorem trimSpace_at_form (t c : Str) :
    trimSpace (['@'] ++ t ++ [':'] ++ c) = ['@'] ++ t ++ [':'] ++ trimRight c := by
  unfold trimSpace
  have e : ['@'] ++ t ++ [':'] ++ c = '@' :: (t ++ ':' :: c) := by simp
  rw [e, trimLeft_cons_stop '@' _ (by decide)]
  have e2 : '@' :: (t ++ ':' :: c) = ('@' :: t) ++ ':' :: c := by simp
  rw [e2, trimRight_append_stop _ _ ':' (by decide)]
  simp

theorem parse_fields_hostname (h1 h2 summary : Str) :
    (parseTargeting h1 summary).targetHost = (parseTargeting h2 summary).targetHost ∧
    (parseTargeting h1 summary).actualCmd = (parseTargeting h2 summary).actualCmd ∧
    (parseTargeting h1 summary).targeted = (parseTargeting h2 summary).targeted := by
  by_cases h : hasPrefix (trimSpace (trimPrefix summary commandPrefix)) ['@'] = true ∧
      ':' ∈ trimSpace (trimPrefix summary commandPrefix)
  · rcases (hasPrefix_iff _ _).mp h.1 with ⟨u, hu⟩
    have hmem : ':' ∈ u := by
      have := h.2
      rw [hu] at this
      simpa using this
    rcases mem_first ':' u hmem with ⟨a, b, hab, ha⟩
    have hrem : trimSpace (trimPrefix summary commandPrefix) = ['@'] ++ a ++ [':'] ++ b := by
      rw [hu, hab]
      simp
    rw [parse_targeted h1 summary a b hrem ha, parse_targeted h2 summary a b hrem ha]
    exact ⟨rfl, rfl, rfl⟩
  · rw [parse_untargeted h1 summary h, parse_untargeted h2 summary h]
    exact ⟨rfl, rfl, rfl⟩

theorem skip_eq (hostname summary : Str) :
    (parseTargeting hostname summary).skip =
      ((parseTargeting hostname summary).targeted &&
        ((parseTargeting hostname summary).targetHost != [] &&
          (parseTargeting hostname summary).targetHost != hostname &&
          (parseTargeting hostname summary).targetHost != ['*'])) := by
  by_cases h : hasPrefix (trimSpace (trimPrefix summary commandPrefix)) ['@'] = true ∧
      ':' ∈ trimSpace (trimPrefix summary commandPrefix)
  · rcases (hasPrefix_iff _ _).mp h.1 with ⟨u, hu⟩
    have hmem : ':' ∈ u := by
      have := h.2
      rw [hu] at this
      simpa using this
    rcases mem_first ':' u hmem with ⟨a, b, hab, ha⟩
    have hrem : trimSpace (trimPrefix summary commandPrefix) = ['@'] ++ a ++ [':'] ++ b := by
      rw [hu, hab]
      simp
    rw [parse_targeted hostname summary a b hrem ha]
    simp
  · rw [parse_untargeted hostname summary h]
    simp

theorem decode_createCommandSummary_untargeted (command : Str)
    (h : ¬(hasPrefix (trimSpace command) ['@'] = true ∧ ':' ∈ trimSpace command)) :
    decode (createCommandSummary command) = (.Broadcast, trimSpace command) := by
  unfold decode
  rw [parse_untargeted [] _ (by rw [trimPrefix_createCommandSummary]; exact h),
    trimPrefix_createCommandSummary]
  rfl

theorem decode_createCommandSummary_targeted (command t c : Str)
    (hrem : trimSpace command = ['@'] ++ t ++ [':'] ++ c) (ht : ':' ∉ t) :
    decode (createCommandSummary command) =
      (if t = ['*'] then .Wildcard else .Host t, c) := by
  unfold decode
  rw [parse_targeted [] _ t c (by rw [trimPrefix_createCommandSummary]; exact hrem) ht]
  rfl

theorem decode_encode_broadcast_iff (command : Str) :
    decode (encode .Broadcast command) = (.Broadcast, command) ↔
      wellFormedTask .Broadcast command := by
  unfold encode targetCommand wellFormedTask
  by_cases h : hasPrefix (trimSpace command) ['@'] = true ∧ ':' ∈ trimSpace command
  · rcases (hasPrefix_iff _ _).mp h.1 with ⟨u, hu⟩
    have hmem : ':' ∈ u := by
      have := h.2
      rw [hu] at this
      simpa using this
    rcases mem_first ':' u hmem with ⟨a, b, hab, ha⟩
    have hrem : trimSpace command = ['@'] ++ a ++ [':'] ++ b := by
      rw [hu, hab]
      simp
    rw [decode_createCommandSummary_targeted command a b hrem ha]
    constructor
    · intro e
      have e1 := congrArg Prod.fst e
      by_cases hs : a = ['*'] <;> simp [hs] at e1
    · rintro ⟨e, hn⟩
      rw [e] at h
      exact absurd h hn
  · rw [decode_createCommandSummary_untargeted command h]
    constructor
    · intro e
      have e2 : trimSpace command = command := congrArg Prod.snd e
      refine ⟨e2, ?_⟩
      rw [e2] at h
      exact h
    · rintro ⟨e, _⟩
      rw [e]

theorem decode_encode_host_iff (h command : Str) :
    decode (encode (.Host h) command) = (.Host h, command) ↔
      wellFormedTask (.Host h) command := by
  unfold encode targetCommand wellFormedTask
  by_cases hc : ':' ∈ h
  · rcases mem_first ':' h hc with ⟨a, b, hab, ha⟩
    have hrem : trimSpace (['@'] ++ h ++ [':'] ++ command) =
        ['@'] ++ a ++ [':'] ++ (b ++ [':'] ++ trimRight command) := by
      rw [trimSpace_at_form, hab]
      simp
    rw [decode_createCommandSummary_targeted _ a _ hrem ha]
    constructor
    · intro e
      have e1 := congrArg Prod.fst e
      by_cases hs : a = ['*']
      · simp [hs] at e1
      · simp only [hs, if_false, TargetSpec.Host.injEq] at e1
        rw [← e1] at hc
        exact absurd hc ha
    · rintro ⟨hn, _⟩
      exact absurd hc hn
  · rw [decode_createCommandSummary_targeted _ h _ (trimSpace_at_form h command) hc]
    constructor
    · intro e
      have e1 := congrArg Prod.fst e
      have e2 : trimRight command = command := congrArg Prod.snd e
      refine ⟨hc, ?_, e2⟩
      intro hs
      simp [hs] at e1
    · rintro ⟨_, hs, e⟩
      rw [if_neg hs, e]

theorem decode_encode_wildcard_iff (command : Str) :
    decode (encode .Wildcard command) = (.Wildcard, command) ↔
      wellFormedTask .Wildcard command := by
  unfold encode targetCommand wellFormedTask
  have hrem : trimSpace (['@', '*', ':'] ++ command) =
      ['@'] ++ ['*'] ++ [':'] ++ trimRight command := by
    have := trimSpace_at_form ['*'] command
    simpa using this
  rw [decode_createCommandSummary_targeted _ ['*'] _ hrem (by decide)]
  constructor
  · intro e
    exact congrArg Prod.snd e
  · intro e
    rw [if_pos rfl, e]

theorem checkEvent_of_checks (hostname : Str) (event : Event)
    (hpre : hasPrefix event.Summary commandPrefix = true)
    (hnot : contains event.Description (startMarker hostname) = false) :
    checkEvent hostname event =
      if (parseTargeting hostname event.Summary).skip then .notTargeted
      else .execute (parseTargeting hostname event.Summary).actualCmd := by
  unfold checkEvent
  simp [hpre, hnot]

theorem contains_appendOutput (description hostname output : Str) :
    contains (appendOutput description hostname output) (startMarker hostname) = true := by
  unfold appendOutput
  have e : description ++ ['\n', '\n'] ++ startMarker hostname ++ ['\n'] ++ output ++ ['\n'] ++
      endMarker hostname =
      (description ++ ['\n', '\n']) ++ startMarker hostname ++
        (['\n'] ++ output ++ ['\n'] ++ endMarker hostname) := by
    simp
  rw [e]
  exact contains_middle _ _ _

theorem pollEvent_of_reported (exec : Str → Str → Str) (hostname : Str) (event : Event)
    (h : contains event.Description (startMarker hostname) = true) :
    pollEvent exec hostname event = (event, []) := by
  unfold pollEvent checkEvent
  by_cases hp : hasPrefix event.Summary commandPrefix = true <;> simp [hp, h]

/-! ## The tasking codec and the dispatch check -/

/-- C1 (counterexample): the title `Meeting from nobody: @:whoami` has the empty
target token, which differs from the host name `web01` and from `*`, and the
targeting check of `CheckAndExecute` does not skip it: agent `web01` runs
`whoami`. Likewise the token `db02:x` differs from the host name `db02` and
from `*`, and agent `db02` is not skipped: it runs `x:whoami`. -/
theorem C1_foreign_target_runs :
    ([] : Str) ≠ "web01".toList ∧ ([] : Str) ≠ ['*'] ∧
    encode (.Host []) "whoami".toList = "Meeting from nobody: @:whoami".toList ∧
    (parseTargeting "web01".toList "Meeting from nobody: @:whoami".toList).skip = false ∧
    checkEvent "web01".toList
        { Id := "e1".toList, Summary := "Meeting from nobody: @:whoami".toList,
          Description := [], ColorId := ['1'] } =
      .execute "whoami".toList ∧
    "db02:x".toList ≠ "db02".toList ∧ "db02:x".toList ≠ ['*'] ∧
    (parseTargeting "db02".toList (encode (.Host "db02:x".toList) "whoami".toList)).skip = false ∧
    checkEvent "db02".toList
        { Id := "e2".toList, Summary := encode (.Host "db02:x".toList) "whoami".toList,
          Description := [], ColorId := ['1'] } =
      .execute "x:whoami".toList := by
  decide

/-- C1 (amended): for a title `Meeting from nobody: @<h1>:<command>` whose `h1`
has no `:`, and an agent host name `h2` with `h1 ≠ h2` and `h1 ≠ "*"`: when
`h1` is not empty the targeting check of `CheckAndExecute` skips the task, and
an agent that has not reported on the event does nothing with it; when `h1` is
empty the targeting check does not skip the task, and an agent that has not
reported on the event runs `command` with its trailing white space removed. -/
theorem C1_foreign_target_skipped (h1 h2 command : Str) (event : Event)
    (hcolon : ':' ∉ h1) (hne : h1 ≠ h2) (hstar : h1 ≠ ['*'])
    (hsum : event.Summary = encode (.Host h1) command)
    (hnot : contains event.Description (startMarker h2) = false) :
    (h1 ≠ [] →
      (parseTargeting h2 event.Summary).skip = true ∧ checkEvent h2 event = .notTargeted) ∧
    (h1 = [] →
      (parseTargeting h2 event.Summary).skip = false ∧
      (parseTargeting h2 event.Summary).actualCmd = trimRight command ∧
      checkEvent h2 event = .execute (trimRight command)) := by
  have hparse : parseTargeting h2 event.Summary =
      { targetHost := h1, actualCmd := trimRight command, targeted := true,
        skip := h1 != [] && h1 != h2 && h1 != ['*'] } := by
    rw [hsum]
    apply parse_targeted
    · unfold encode targetCommand
      rw [trimPrefix_createCommandSummary, trimSpace_at_form]
    · exact hcolon
  have hpre : hasPrefix event.Summary commandPrefix = true := by
    rw [hsum]
    unfold encode createCommandSummary
    rw [List.append_assoc]
    exact hasPrefix_append _ _
  rw [checkEvent_of_checks h2 event hpre hnot, hparse]
  constructor
  · intro hnil
    simp [hnil, hne, hstar]
  · intro hnil
    simp [hnil]

/-- C1 (witness): the title for `web01` is skipped by agent `db02`, and the
title `Meeting from nobody: @: whoami ` makes agent `db02` run ` whoami`. -/
theorem C1_foreign_target_skipped_witness :
    ':' ∉ "web01".toList ∧ "web01".toList ≠ "db02".toList ∧ "web01".toList ≠ ['*'] ∧
    "web01".toList ≠ [] ∧
    checkEvent "db02".toList
        { Id := "e1".toList, Summary := encode (.Host "web01".toList) "whoami".toList,
          Description := [], ColorId := ['1'] } =
      .notTargeted ∧
    checkEvent "db02".toList
        { Id := "e2".toList, Summary := "Meeting from nobody: @: whoami ".toList,
          Description := [], ColorId := ['1'] } =
      .execute " whoami".toList :=
  ⟨by decide, by decide, by decide, by decide,
    ((C1_foreign_target_skipped "web01".toList "db02".toList "whoami".toList
      { Id := "e1".toList, Summary := encode (.Host "web01".toList) "whoami".toList,
        Description := [], ColorId := ['1'] }
      (by decide) (by decide) (by decide) rfl (by decide)).1 (by decide)).2,
    ((C1_foreign_target_skipped [] "db02".toList " whoami ".toList
      { Id := "e2".toList, Summary := "Meeting from nobody: @: whoami ".toList,
        Description := [], ColorId := ['1'] }
      (by decide) (by decide) (by decide) (by decide) (by decide)).2 rfl).2.2⟩

/-- C2 (counterexample): the command `@web01:whoami` does not contain the title
prefix, and as a broadcast it gets the same title as the command `whoami` for
host `web01`, so decoding the title does not give back the broadcast. -/
theorem C2_titles_collide :
    contains "@web01:whoami".toList commandPrefix = false ∧
    encode .Broadcast "@web01:whoami".toList = encode (.Host "web01".toList) "whoami".toList ∧
    decode (encode .Broadcast "@web01:whoami".toList) =
      (.Host "web01".toList, "whoami".toList) ∧
    decode (encode .Broadcast "@web01:whoami".toList) ≠
      (.Broadcast, "@web01:whoami".toList) := by
  decide

/-- C2 (amended): decoding the title built for a target and a command gives
back the target and the command exactly for the well-formed tasks: a broadcast
command without white space at either end that does not both start with `@` and
contain `:`; a host name without `:` and other than `*` with a command without
trailing white space; the wildcard with a command without trailing white space. -/
theorem C2_decode_encode_iff (target : TargetSpec) (command : Str) :
    decode (encode target command) = (target, command) ↔ wellFormedTask target command := by
  cases target with
  | Broadcast => exact decode_encode_broadcast_iff command
  | Host h => exact decode_encode_host_iff h command
  | Wildcard => exact decode_encode_wildcard_iff command

/-- C6: an agent that has not reported on an event whose title has the command
prefix runs the decoded command when the decoded target is a broadcast, the
wildcard, or the agent's own host name. -/
theorem C6_addressed_agent_executes (hostname : Str) (event : Event)
    (hpre : hasPrefix event.Summary commandPrefix = true)
    (hnot : contains event.Description (startMarker hostname) = false)
    (htarget : (decode event.Summary).1 = .Broadcast ∨ (decode event.Summary).1 = .Wildcard ∨
      (decode event.Summary).1 = .Host hostname) :
    (parseTargeting hostname event.Summary).skip = false ∧
    checkEvent hostname event = .execute (decode event.Summary).2 := by
  have hf := parse_fields_hostname hostname [] event.Summary
  have hskip : (parseTargeting hostname event.Summary).skip = false := by
    rw [skip_eq, hf.1, hf.2.2]
    unfold decode specTarget at htarget
    simp only at htarget
    cases ht : (parseTargeting [] event.Summary).targeted with
    | false => simp
    | true =>
      rw [ht] at htarget
      simp only [if_true] at htarget
      by_cases hs : (parseTargeting [] event.Summary).targetHost = ['*']
      · simp [hs]
      · simp only [hs, if_false, TargetSpec.Host.injEq] at htarget
        rcases htarget with e | e | e
        · exact absurd e (by simp)
        · exact absurd e (by simp)
        · simp [e]
  refine ⟨hskip, ?_⟩
  rw [checkEvent_of_checks hostname event hpre hnot, hskip]
  simp only [decode]
  rw [hf.2.1]
  rfl

/-- C6 (witness): agent `web01` runs `whoami` from the wildcard title. -/
theorem C6_addressed_agent_executes_witness :
    checkEvent "web01".toList
        { Id := "e1".toList, Summary := "Meeting from nobody: @*:whoami".toList,
          Description := [], ColorId := ['1'] } =
      .execute "whoami".toList :=
  (C6_addressed_agent_executes "web01".toList
    { Id := "e1".toList, Summary := "Meeting from nobody: @*:whoami".toList,
      Description := [], ColorId := ['1'] }
    (by decide) (by decide) (by decide)).2

/-- C7: for a title with the command prefix whose remainder, after the prefix
is stripped and white space trimmed, is `@` + t + `:` + c with no `:` in t, the
parse of `CheckAndExecute` gives the target token t and the command c; an agent
that has not reported skips the event when t is a non-empty name other than its
own and `*`, and runs c otherwise. -/
theorem C7_split_at_first_colon (hostname : Str) (event : Event) (t c : Str)
    (hpre : hasPrefix event.Summary commandPrefix = true)
    (hrem : trimSpace (trimPrefix event.Summary commandPrefix) = ['@'] ++ t ++ [':'] ++ c)
    (ht : ':' ∉ t) :
    (parseTargeting hostname event.Summary).targetHost = t ∧
    (parseTargeting hostname event.Summary).actualCmd = c ∧
    (contains event.Description (startMarker hostname) = false →
      checkEvent hostname event =
        if t ≠ [] ∧ t ≠ hostname ∧ t ≠ ['*'] then .notTargeted else .execute c) := by
  have hparse := parse_targeted hostname event.Summary t c hrem ht
  refine ⟨by rw [hparse], by rw [hparse], ?_⟩
  intro hnot
  rw [checkEvent_of_checks hostname event hpre hnot, hparse]
  by_cases h1 : t = [] <;> by_cases h2 : t = hostname <;> by_cases h3 : t = ['*'] <;>
    simp [h1, h2, h3]

/-- C7 (witness): `Meeting from nobody: @web01:whoami` gives (web01, whoami),
is run on host web01 and skipped on host db02. -/
theorem C7_split_at_first_colon_witness :
    (parseTargeting "web01".toList "Meeting from nobody: @web01:whoami".toList).targetHost =
      "web01".toList ∧
    (parseTargeting "web01".toList "Meeting from nobody: @web01:whoami".toList).actualCmd =
      "whoami".toList ∧
    checkEvent "web01".toList
        { Id := "e1".toList, Summary := "Meeting from nobody: @web01:whoami".toList,
          Description := [], ColorId := ['1'] } =
      .execute "whoami".toList ∧
    checkEvent "db02".toList
        { Id := "e1".toList, Summary := "Meeting from nobody: @web01:whoami".toList,
          Description := [], ColorId := ['1'] } =
      .notTargeted :=
  have h := C7_split_at_first_colon "web01".toList
    { Id := "e1".toList, Summary := "Meeting from nobody: @web01:whoami".toList,
      Description := [], ColorId := ['1'] }
    "web01".toList "whoami".toList (by decide) (by decide) (by decide)
  ⟨h.1, h.2.1, by decide, by decide⟩

/-! ## The output ledger -/

/-- C3 (counterexample): one report by host `a` whose result has a line that
begins with `[/OUTPUT-`; the body decodes to an entry for `a` that holds only
the text before that line, not the result. Likewise a report under the empty
host id decodes to no entry, a host id with a newline is not a key of the
decoded map, and a result that begins with a newline comes back without it. -/
theorem C3_reports_not_recovered :
    ([("a".toList, "x\n[/OUTPUT-b]\ny".toList)].map Prod.fst).Nodup ∧
    extractHostOutputs (appendAll [] [("a".toList, "x\n[/OUTPUT-b]\ny".toList)]) =
      [("a".toList, "x".toList)] ∧
    mapGet (extractHostOutputs (appendAll [] [("a".toList, "x\n[/OUTPUT-b]\ny".toList)]))
      "a".toList ≠ some "x\n[/OUTPUT-b]\ny".toList ∧
    extractHostOutputs (appendAll [] [([], "x".toList)]) = [] ∧
    mapGet (extractHostOutputs (appendAll [] [("a\nb".toList, "x".toList)])) "a\nb".toList =
      none ∧
    extractHostOutputs (appendAll [] [("a".toList, "\nx".toList)]) =
      [("a".toList, "x".toList)] := by
  decide

/-- C3 (amended): for reports with pairwise distinct host ids, each host id
non-empty and without a newline, each result empty or not beginning with a
newline and without a line that begins with `[OUTPUT-` or `[/OUTPUT-`, the body
built from the empty body by appending the blocks in turn decodes to as many
entries as reports, keyed by the host ids, each mapped to its result. -/
theorem C3_distinct_hosts_decoded (reports : List (Str × Str))
    (hd : (reports.map Prod.fst).Nodup)
    (hv : ∀ p ∈ reports, validHost p.1 ∧ noLeadingNewline p.2 ∧ plainText p.2) :
    (extractHostOutputs (appendAll [] reports)).length = reports.length ∧
    (mapKeys (extractHostOutputs (appendAll [] reports))).Perm (reports.map Prod.fst) ∧
    ∀ p ∈ reports, mapGet (extractHostOutputs (appendAll [] reports)) p.1 = some p.2 := by
  have hnil : extractHostOutputs [] = [] := rfl
  have e : extractHostOutputs (appendAll [] reports) = reports.reverse := by
    rw [extract_appendAll reports hv [], hnil, foldl_mapSet_distinct reports [] hd (by simp [mapKeys])]
    simp
  rw [e]
  refine ⟨by simp, ?_, ?_⟩
  · unfold mapKeys
    rw [List.map_reverse]
    exact List.reverse_perm _
  · intro p hp
    apply mapGet_of_mem
    · unfold mapKeys
      rw [List.map_reverse]
      exact List.nodup_reverse.mpr hd
    · exact List.mem_reverse.mpr hp

/-- C3 (witness): two agents report in turn. -/
theorem C3_distinct_hosts_decoded_witness :
    (extractHostOutputs (appendAll []
      [("web01".toList, "[Host: web01]\nroot".toList), ("db02".toList, [])])).length = 2 ∧
    mapGet (extractHostOutputs (appendAll []
      [("web01".toList, "[Host: web01]\nroot".toList), ("db02".toList, [])])) "web01".toList =
      some "[Host: web01]\nroot".toList :=
  have h := C3_distinct_hosts_decoded
    [("web01".toList, "[Host: web01]\nroot".toList), ("db02".toList, [])]
    (by decide) (by decide)
  ⟨h.1, h.2.2 ("web01".toList, "[Host: web01]\nroot".toList) (by decide)⟩

/-- C4: after `UpdateEventWithOutput` has appended the block of host `h` to any
body, the body contains the start marker of `h`; a poll pass of `h` over the
updated event leaves it as it is and runs no command, and so does a second
poll pass after a first one. -/
theorem C4_poll_idempotent (exec : Str → Str → Str) (h r : Str) (event : Event) :
    contains (appendOutput event.Description h r) (startMarker h) = true ∧
    pollEvent exec h (updateEventWithOutput h r event) = (updateEventWithOutput h r event, []) ∧
    pollEvent exec h (pollEvent exec h event).1 = ((pollEvent exec h event).1, []) := by
  refine ⟨contains_appendOutput _ _ _, ?_, ?_⟩
  · exact pollEvent_of_reported exec h _ (contains_appendOutput _ _ _)
  · cases hc : checkEvent h event with
    | execute cmd =>
      have e : pollEvent exec h event =
          (updateEventWithOutput h (exec cmd event.Description) event, [cmd]) := by
        unfold pollEvent
        rw [hc]
      rw [e]
      exact pollEvent_of_reported exec h _ (contains_appendOutput _ _ _)
    | notCommand =>
      have e : pollEvent exec h event = (event, []) := by
        unfold pollEvent
        rw [hc]
      rw [e, e]
    | alreadyExecuted =>
      have e : pollEvent exec h event = (event, []) := by
        unfold pollEvent
        rw [hc]
      rw [e, e]
    | notTargeted =>
      have e : pollEvent exec h event = (event, []) := by
        unfold pollEvent
        rw [hc]
      rw [e, e]

/-- C5 (counterexample): a body whose start line lacks the closing `]`;
`extractHostOutputs` returns the key `a`, `getExecutedHosts` returns no host. -/
theorem C5_unclosed_start_line :
    extractHostOutputs "[OUTPUT-a\nx\n[/OUTPUT-a]".toList = [("a".toList, "x".toList)] ∧
    getExecutedHosts "[OUTPUT-a\nx\n[/OUTPUT-a]".toList = [] ∧
    "a".toList ∈ mapKeys (extractHostOutputs "[OUTPUT-a\nx\n[/OUTPUT-a]".toList) ∧
    "a".toList ∉ getExecutedHosts "[OUTPUT-a\nx\n[/OUTPUT-a]".toList := by
  decide

/-- C5 (amended): for every body in which each line that begins with `[OUTPUT-`
also ends with `]`, every key that `extractHostOutputs` returns is among the
host ids that `getExecutedHosts` returns. -/
theorem C5_keys_among_executed_hosts (body : Str)
    (hclosed : ∀ line ∈ split '\n' body,
      hasPrefix line outputOpen = true → hasSuffix line [']'] = true) :
    ∀ k ∈ mapKeys (extractHostOutputs body), k ∈ getExecutedHosts body := by
  unfold extractHostOutputs
  apply scan_keys (getExecutedHosts body) (split '\n' body)
  · intro l hl ho
    unfold getExecutedHosts
    apply List.mem_map.mpr
    refine ⟨l, ?_, rfl⟩
    apply List.mem_filter.mpr
    exact ⟨hl, by simp [ho, hclosed l hl ho]⟩
  · intro k hk
    simp [ScanState.init, mapKeys] at hk
  · intro hcap
    simp [ScanState.init] at hcap

/-- C5 (witness): the key of the body one agent wrote is a listed host. -/
theorem C5_keys_among_executed_hosts_witness :
    "web01".toList ∈ mapKeys (extractHostOutputs (appendOutput [] "web01".toList "root".toList)) ∧
    "web01".toList ∈ getExecutedHosts (appendOutput [] "web01".toList "root".toList) :=
  ⟨by decide,
    C5_keys_among_executed_hosts (appendOutput [] "web01".toList "root".toList) (by decide)
      "web01".toList (by decide)⟩

/-- C8: a body with an unterminated block of host A, then the start marker of
host B, the content and the end marker of B, decodes to one entry, keyed by B,
whose text is what the scanner captures from the lines of the content alone;
it is the content itself when the content does not begin with a newline. -/
theorem C8_unterminated_block_discarded (A B lost content : Str)
    (hA : validHost A) (hB : validHost B) (hl : plainText lost) (hc : plainText content) :
    extractHostOutputs
        (startMarker A ++ ['\n'] ++ lost ++ ['\n'] ++ startMarker B ++ ['\n'] ++ content ++
          ['\n'] ++ endMarker B) =
      [(B, (split '\n' content).foldl writeLine [])] ∧
    (noLeadingNewline content →
      extractHostOutputs
          (startMarker A ++ ['\n'] ++ lost ++ ['\n'] ++ startMarker B ++ ['\n'] ++ content ++
            ['\n'] ++ endMarker B) =
        [(B, content)]) := by
  have e := extract_block_after_open A B lost content hA.2 hB hl hc
  refine ⟨e, ?_⟩
  intro hn
  rw [e, foldl_writeLine_split content hn]

/-- C8 (witness): the block of `web01` is cut short by the start marker of `db02`. -/
theorem C8_unterminated_block_discarded_witness :
    extractHostOutputs "[OUTPUT-web01]\nhalf\n[OUTPUT-db02]\nroot\n[/OUTPUT-db02]".toList =
      [("db02".toList, "root".toList)] :=
  (C8_unterminated_block_discarded "web01".toList "db02".toList "half".toList "root".toList
    (by decide) (by decide) (by decide) (by decide)).2 (by decide)

/-- C9: over a store held as a list of events with pairwise distinct ids, every
delete succeeding, `ClearExecutedEvents` leaves exactly the events whose
description does not contain `[OUTPUT-`, unchanged and in order, and counts the
events whose description contains it. -/
theorem C9_purge_exactly_marked (store : List Event) (hid : (store.map Event.Id).Nodup) :
    (clearExecutedEvents store).1 =
      store.filter (fun e => !contains e.Description outputOpen) ∧
    (clearExecutedEvents store).2 =
      (store.filter (fun e => contains e.Description outputOpen)).length := by
  unfold clearExecutedEvents
  rw [clearLoop_eq]
  refine ⟨?_, by simp⟩
  apply List.filter_congr
  intro e he
  congr 1
  cases hc : contains e.Description outputOpen with
  | true =>
    apply List.any_eq_true.mpr
    exact ⟨e, he, by simp [hc]⟩
  | false =>
    apply List.any_eq_false.mpr
    intro i hi hcontra
    simp only [Bool.and_eq_true, beq_iff_eq] at hcontra
    have hie : i = e := List.inj_on_of_nodup_map hid hi he hcontra.2
    rw [hie, hc] at hcontra
    exact absurd hcontra.1 (by simp)

/-- C9 (witness): of three events, the two with an output marker are deleted. -/
theorem C9_purge_exactly_marked_witness :
    (clearExecutedEvents
      [{ Id := "e1".toList, Summary := [], Description := "\n\n[OUTPUT-a]\nx\n[/OUTPUT-a]".toList,
         ColorId := [] },
       { Id := "e2".toList, Summary := [], Description := "notes".toList, ColorId := [] },
       { Id := "e3".toList, Summary := [], Description := "[OUTPUT-".toList, ColorId := [] }]).1 =
      [{ Id := "e2".toList, Summary := [], Description := "notes".toList, ColorId := [] }] :=
  (C9_purge_exactly_marked
    [{ Id := "e1".toList, Summary := [], Description := "\n\n[OUTPUT-a]\nx\n[/OUTPUT-a]".toList,
       ColorId := [] },
     { Id := "e2".toList, Summary := [], Description := "notes".toList, ColorId := [] },
     { Id := "e3".toList, Summary := [], Description := "[OUTPUT-".toList, ColorId := [] }]
    (by decide)).1.trans (by decide)

/-- C10: for every prior body, every non-empty host id without a newline and
every result that is empty or does not begin with a newline and has no line
that begins with `[OUTPUT-` or `[/OUTPUT-`, the body after the append of the
block decodes to a map that gives the host id exactly the result. -/
theorem C10_latest_report_recoverable (b h r : Str)
    (hne : h ≠ []) (hnl : '\n' ∉ h) (hr : noLeadingNewline r) (hp : plainText r) :
    mapGet (extractHostOutputs (appendOutput b h r)) h = some r := by
  rw [extract_appendOutput b h r ⟨hne, hnl⟩ hp hr]
  exact mapGet_mapSet _ _ _

/-- C10 (witness): a report appended to a body that ends in an open block. -/
theorem C10_latest_report_recoverable_witness :
    mapGet
      (extractHostOutputs
        (appendOutput "junk\n[/OUTPUT-x]\n[OUTPUT-db02".toList "web01".toList
          "[Host: web01]\nroot".toList))
      "web01".toList = some "[Host: web01]\nroot".toList :=
  C10_latest_report_recoverable "junk\n[/OUTPUT-x]\n[OUTPUT-db02".toList "web01".toList
    "[Host: web01]\nroot".toList (by decide) (by decide) (by decide) (by decide)

end MeetC2
